import Mathlib

set_option maxRecDepth 8000

/- Shallow embedding of the pi-bash-guard core (src/index.ts): shell
   segmentation, tokenization, invocation normalization, rule compilation,
   matching, the two-layer decision engine, the stateful policy-command
   handlers, and the persisted-configuration loader.  JavaScript strings are
   modelled as Lean String values (character lists), JS Set objects as
   duplicate-free lists in insertion order, and the storage write as an
   explicit success/failure parameter. -/

/-- A compiled rule.  The canonical-text field is called prefix in the
source; that word is a reserved keyword in Lean, so the field is named pfx. -/
structure PrefixRule where
  pfx : String
  tokens : List String
  tokenCount : Nat
deriving DecidableEq

/-- One reported blocked segment, as in the source interface. -/
structure BlockedInvocation where
  invocation : String
  matchedBlocks : List String
deriving DecidableEq

/-- The per-layer verdict values used by decideLayer. -/
inductive GuardAction where
  | permit
  | block
  | none
deriving DecidableEq

/-- Result of decideLayer. -/
structure LayerDecision where
  action : GuardAction
  matchedBlocks : List String
deriving DecidableEq

/-- Notification severities of the host UI. -/
inductive NotifyLevel where
  | info
  | warning
  | error
deriving DecidableEq

/-- The JavaScript regular-expression whitespace class, as tested by the
tokenizer, and the character class trimmed by String.prototype.trim. -/
def jsWhitespaceChar (c : Char) : Bool :=
  decide (c = ' ' ∨ c = '\t' ∨ c = '\n' ∨ c = '\r' ∨ c = '\x0b' ∨ c = '\x0c' ∨
    c = ' ' ∨ c = ' ' ∨ (' ' ≤ c ∧ c ≤ ' ') ∨
    c = ' ' ∨ c = ' ' ∨ c = ' ' ∨ c = ' ' ∨ c = '　' ∨
    c = '﻿')

/-- Drop a leading and a trailing run of whitespace, as String.prototype.trim. -/
def trimChars (cs : List Char) : List Char :=
  ((cs.dropWhile jsWhitespaceChar).reverse.dropWhile jsWhitespaceChar).reverse

/-- String.prototype.trim. -/
def jsTrim (s : String) : String := String.mk (trimChars s.data)

/-- splitShellSegments, character scan (src/index.ts lines 44-88): the
parameters carry the current buffer, the quote state, the escaped state and
the emitted segments. -/
def segmentLoop : List Char → List Char → Option Char → Bool → List String → List String
  | [], current, _, _, segments =>
    let t := trimChars current
    if t.isEmpty then segments else segments ++ [String.mk t]
  | ch :: rest, current, quote, escaped, segments =>
    if escaped then segmentLoop rest (current ++ [ch]) quote false segments
    else if ch = '\\' then segmentLoop rest (current ++ [ch]) quote true segments
    else
      match quote with
      | some q => segmentLoop rest (current ++ [ch]) (if ch = q then Option.none else some q) false segments
      | Option.none =>
        if ch = '"' ∨ ch = '\'' then segmentLoop rest (current ++ [ch]) (some ch) false segments
        else if ch = ';' ∨ ch = '|' ∨ ch = '&' ∨ ch = '\n' then
          let t := trimChars current
          if t.isEmpty then segmentLoop rest [] Option.none false segments
          else segmentLoop rest [] Option.none false (segments ++ [String.mk t])
        else segmentLoop rest (current ++ [ch]) Option.none false segments

/-- splitShellSegments (src/index.ts lines 44-88). -/
def splitShellSegments (command : String) : List String :=
  segmentLoop command.data [] Option.none false []

/-- tokenizeShellWords, character scan (src/index.ts lines 90-137). -/
def tokenizeLoop : List Char → List Char → Option Char → Bool → List String → List String
  | [], current, _, _, tokens =>
    if current.isEmpty then tokens else tokens ++ [String.mk current]
  | ch :: rest, current, quote, escaped, tokens =>
    if escaped then tokenizeLoop rest (current ++ [ch]) quote false tokens
    else if ch = '\\' ∧ quote ≠ some '\'' then tokenizeLoop rest current quote true tokens
    else
      match quote with
      | some q =>
        if ch = q then tokenizeLoop rest current Option.none false tokens
        else tokenizeLoop rest (current ++ [ch]) (some q) false tokens
      | Option.none =>
        if ch = '"' ∨ ch = '\'' then tokenizeLoop rest current (some ch) false tokens
        else if jsWhitespaceChar ch then
          if current.isEmpty then tokenizeLoop rest [] Option.none false tokens
          else tokenizeLoop rest [] Option.none false (tokens ++ [String.mk current])
        else tokenizeLoop rest (current ++ [ch]) Option.none false tokens

/-- tokenizeShellWords (src/index.ts lines 90-137). -/
def tokenizeShellWords (segment : String) : List String :=
  tokenizeLoop segment.data [] Option.none false []

/-- First character class of the environment-assignment shape. -/
def isIdentStartChar (c : Char) : Bool := c.isAlpha || c == '_'

/-- Later character class of the environment-assignment shape. -/
def isIdentChar (c : Char) : Bool := c.isAlphanum || c == '_'

/-- isEnvAssignment (src/index.ts lines 139-141): the anchored test of the
regular expression IDENTIFIER=... (letter or underscore, then letters,
digits or underscores, then an equals sign). -/
def isEnvAssignment (token : String) : Bool :=
  match token.data with
  | [] => false
  | c :: rest =>
    isIdentStartChar c &&
      match rest.dropWhile isIdentChar with
      | '=' :: _ => true
      | _ => false

/-- Quote characters stripped at the extremities of a command name. -/
def isQuoteChar (c : Char) : Bool := c == '\'' || c == '"'

/-- Parenthesis characters stripped at the extremities of a command name. -/
def isParenChar (c : Char) : Bool := c == '(' || c == ')'

/-- Drop a leading run and a trailing run of characters satisfying pr. -/
def dropEdges (pr : Char → Bool) (cs : List Char) : List Char :=
  ((cs.dropWhile pr).reverse.dropWhile pr).reverse

/-- String.prototype.split on a single separator character. -/
def splitOnChar (sep : Char) : List Char → List (List Char)
  | [] => [[]]
  | c :: rest =>
    let groups := splitOnChar sep rest
    if c = sep then [] :: groups
    else
      match groups with
      | [] => [[c]]
      | g :: gs => (c :: g) :: gs

/-- Strip a trailing case-insensitive .exe, as the replace of \.exe at the
end of the string, case-insensitively. -/
def stripExeSuffix (cs : List Char) : List Char :=
  if 4 ≤ cs.length ∧ (cs.drop (cs.length - 4)).map Char.toLower = ['.', 'e', 'x', 'e'] then
    cs.take (cs.length - 4)
  else cs

/-- normalizeCommandName (src/index.ts lines 143-148): trim, strip quote
characters at the extremities, strip enclosing parentheses, keep the final
slash-separated nonempty path component (or the whole text when there is
none), strip a trailing case-insensitive .exe, lowercase. -/
def normalizeCommandName (raw : String) : String :=
  let trimmed := dropEdges isQuoteChar (trimChars raw.data)
  let noParens := dropEdges isParenChar trimmed
  let comps := (splitOnChar '/' noParens).filter (fun g => !g.isEmpty)
  let base :=
    match comps.getLast? with
    | some b => b
    | Option.none => noParens
  String.mk ((stripExeSuffix base).map Char.toLower)

/-- String.prototype.startsWith applied to a dash. -/
def startsWithDash (s : String) : Bool :=
  match s.data with
  | [] => false
  | c :: _ => c == '-'

/-- The fixed set of sudo options that consume a value token
(src/index.ts lines 27-42). -/
def SUDO_OPTIONS_WITH_VALUE : List String :=
  ["-u", "--user", "-g", "--group", "-h", "--host", "-p", "--prompt",
   "-r", "--role", "-t", "--type", "-c", "--close-from"]

/-- The leading environment-assignment skipping loop (src/index.ts line 154). -/
def skipEnvAssignments : List String → List String
  | [] => []
  | t :: rest => if isEnvAssignment t then skipEnvAssignments rest else t :: rest

/-- The env wrapper's argument-skipping loop (src/index.ts lines 159-182):
skip assignments and dash tokens; -u and --unset consume one more token. -/
def skipEnvArgs : List String → List String
  | [] => []
  | t :: rest =>
    if isEnvAssignment t then skipEnvArgs rest
    else if startsWithDash t then
      if t = "-u" ∨ t = "--unset" then
        match rest with
        | [] => []
        | _ :: rest2 => skipEnvArgs rest2
      else skipEnvArgs rest
    else t :: rest

/-- The sudo wrapper's option-skipping loop (src/index.ts lines 184-193):
skip dash tokens; recognized options additionally consume one value token. -/
def skipSudoArgs : List String → List String
  | [] => []
  | t :: rest =>
    if startsWithDash t then
      if SUDO_OPTIONS_WITH_VALUE.contains (normalizeCommandName t) then
        match rest with
        | [] => []
        | _ :: rest2 => skipSudoArgs rest2
      else skipSudoArgs rest
    else t :: rest

/-- The command, nohup and time wrappers' flag-skipping loop
(src/index.ts lines 195-199). -/
def skipSimpleFlags : List String → List String
  | [] => []
  | t :: rest => if startsWithDash t then skipSimpleFlags rest else t :: rest

/-- The body of normalizeInvocationTokens (src/index.ts lines 150-207) with
an explicit iteration bound.  Every pass of the source's while loop either
returns or strictly shortens the remaining token list, so running the loop
with any bound larger than the token count computes the loop's value (the
lemma normalizeGo_fuel below); the zero-bound case is never reached. -/
def normalizeGo : Nat → List String → List String
  | 0, _ => []
  | fuel + 1, tokens =>
    match skipEnvAssignments tokens with
    | [] => []
    | t :: rest =>
      let token := normalizeCommandName t
      if token = "env" then normalizeGo fuel (skipEnvArgs rest)
      else if token = "sudo" then normalizeGo fuel (skipSudoArgs rest)
      else if token = "command" ∨ token = "nohup" ∨ token = "time" then
        normalizeGo fuel (skipSimpleFlags rest)
      else token :: rest

/-- normalizeInvocationTokens (src/index.ts lines 150-207). -/
def normalizeInvocationTokens (tokens : List String) : List String :=
  normalizeGo (tokens.length + 1) tokens

/-- Array.prototype.join with a single space. -/
def joinTokens : List String → String
  | [] => ""
  | [t] => t
  | t :: rest => t ++ " " ++ joinTokens rest

/-- canonicalizePrefix (src/index.ts lines 209-214): tokenize the trimmed
input, normalize, reject an empty result, join with single spaces.  The
Option.none result models the source's undefined. -/
def canonicalizePrefix (input : String) : Option String :=
  let normalized := normalizeInvocationTokens (tokenizeShellWords (jsTrim input))
  if normalized.isEmpty then Option.none else some (joinTokens normalized)

/-- buildRules (src/index.ts lines 216-232): compile each member of the rule
set, skipping entries whose canonical form is undefined or empty (the
source's falsiness test), re-tokenizing the canonical text. -/
def buildRules : List String → List PrefixRule
  | [] => []
  | p :: rest =>
    match canonicalizePrefix p with
    | Option.none => buildRules rest
    | some canonical =>
      if canonical.isEmpty then buildRules rest
      else
        let tokens := tokenizeShellWords canonical
        ⟨canonical, tokens, tokens.length⟩ :: buildRules rest

/-- isPrefixMatch (src/index.ts lines 234-247): the rule tokens are a
positional, case-sensitive match of the leading invocation tokens. -/
def isPrefixMatch (invocationTokens ruleTokens : List String) : Bool :=
  if ruleTokens.length = 0 ∨ invocationTokens.length < ruleTokens.length then false
  else (ruleTokens.zip invocationTokens).all (fun pr => pr.1 == pr.2)

/-- matchingRules (src/index.ts lines 249-254). -/
def matchingRules (invocationTokens : List String) (rules : List PrefixRule) : List PrefixRule :=
  rules.filter (fun rule => isPrefixMatch invocationTokens rule.tokens)

/-- maxTokenCount (src/index.ts lines 256-259): -1 for the empty list, the
maximum tokenCount otherwise. -/
def maxTokenCount : List PrefixRule → Int
  | [] => -1
  | r :: rs => rs.foldl (fun m rule => max m (rule.tokenCount : Int)) (r.tokenCount : Int)

/-- mostSpecificPrefixes (src/index.ts lines 261-268). -/
def mostSpecificPrefixes (rules : List PrefixRule) : List String :=
  let longest := maxTokenCount rules
  if longest < 0 then []
  else (rules.filter (fun rule => (rule.tokenCount : Int) == longest)).map (fun rule => rule.pfx)

/-- decideLayer (src/index.ts lines 270-290). -/
def decideLayer (permitMatches blockMatches : List PrefixRule) : LayerDecision :=
  let permitLen := maxTokenCount permitMatches
  let blockLen := maxTokenCount blockMatches
  if permitLen < 0 ∧ blockLen < 0 then ⟨GuardAction.none, []⟩
  else if permitLen ≥ blockLen then ⟨GuardAction.permit, []⟩
  else ⟨GuardAction.block, mostSpecificPrefixes blockMatches⟩

/-- isBlockedByPersistentRules (src/index.ts lines 292-304). -/
def isBlockedByPersistentRules (p : String)
    (persistentBlockedPrefixes persistentPermitPrefixes : List String) : Bool :=
  let invocationTokens := tokenizeShellWords p
  let persistentDecision := decideLayer
    (matchingRules invocationTokens (buildRules persistentPermitPrefixes))
    (matchingRules invocationTokens (buildRules persistentBlockedPrefixes))
  persistentDecision.action == GuardAction.block

/-- The per-segment body of the loop of findBlockedInvocations
(src/index.ts lines 320-356), over the already-compiled rule lists. -/
def resolveSegment (invocationTokens : List String)
    (sessionPermitRules sessionBlockRules persistentPermitRules persistentBlockRules :
      List PrefixRule) : Option BlockedInvocation :=
  if invocationTokens.isEmpty then Option.none
  else
    let invocation := joinTokens invocationTokens
    let sessionDecision := decideLayer
      (matchingRules invocationTokens sessionPermitRules)
      (matchingRules invocationTokens sessionBlockRules)
    if sessionDecision.action = GuardAction.permit then Option.none
    else if sessionDecision.action = GuardAction.block then
      some ⟨invocation, sessionDecision.matchedBlocks⟩
    else
      let persistentDecision := decideLayer
        (matchingRules invocationTokens persistentPermitRules)
        (matchingRules invocationTokens persistentBlockRules)
      if persistentDecision.action = GuardAction.block then
        some ⟨invocation, persistentDecision.matchedBlocks⟩
      else Option.none

/-- findBlockedInvocations (src/index.ts lines 306-359): compile the four
rule sets once, then accumulate one record per blocked segment in order. -/
def findBlockedInvocations (input : String)
    (persistentBlockedPrefixes persistentPermitPrefixes
     sessionBlockedPrefixes sessionPermitPrefixes : List String) :
    List BlockedInvocation :=
  let sessionBlockRules := buildRules sessionBlockedPrefixes
  let sessionPermitRules := buildRules sessionPermitPrefixes
  let persistentBlockRules := buildRules persistentBlockedPrefixes
  let persistentPermitRules := buildRules persistentPermitPrefixes
  (splitShellSegments input).foldl
    (fun blocked segment =>
      let invocationTokens := normalizeInvocationTokens (tokenizeShellWords segment)
      if invocationTokens.isEmpty then blocked
      else
        let invocation := joinTokens invocationTokens
        let sessionDecision := decideLayer
          (matchingRules invocationTokens sessionPermitRules)
          (matchingRules invocationTokens sessionBlockRules)
        if sessionDecision.action = GuardAction.permit then blocked
        else if sessionDecision.action = GuardAction.block then
          blocked ++ [⟨invocation, sessionDecision.matchedBlocks⟩]
        else
          let persistentDecision := decideLayer
            (matchingRules invocationTokens persistentPermitRules)
            (matchingRules invocationTokens persistentBlockRules)
          if persistentDecision.action = GuardAction.block then
            blocked ++ [⟨invocation, persistentDecision.matchedBlocks⟩]
          else blocked)
    []

/-- Membership test of a JS Set of strings, modelled over its insertion-order
element list. -/
def setHas (s : List String) (x : String) : Bool := s.contains x

/-- JS Set.prototype.add: append when absent. -/
def setAdd (s : List String) (x : String) : List String :=
  if s.contains x then s else s ++ [x]

/-- JS Set.prototype.delete: remove the element. -/
def setDelete (s : List String) (x : String) : List String :=
  s.filter (fun y => y != x)

/-- Build a JS Set from an array, keeping first occurrences in order. -/
def listToSet (xs : List String) : List String := xs.foldl setAdd []

/-- One layer's pair of rule sets: a blocked set and a permitted set. -/
structure GuardPair where
  blocked : List String
  permitted : List String
deriving DecidableEq

/-- The argument validation shared by the policy-command handlers: the
canonicalized text, with the source's falsiness test rejecting both an
undefined result and an empty string. -/
def canonicalArg (args : String) : Option String :=
  match canonicalizePrefix args with
  | Option.none => Option.none
  | some c => if c.isEmpty then Option.none else some c

/-- The bash-guard-block-persist handler (src/index.ts lines 462-521) on the
persistent rule sets.  The storage write is modelled by the saveOk flag; the
returned list holds the severities of the notifications issued. -/
def blockPersistStep (st : GuardPair) (args : String) (saveOk : Bool) :
    GuardPair × List NotifyLevel :=
  match canonicalArg args with
  | Option.none => (st, [NotifyLevel.warning, NotifyLevel.info])
  | some p =>
    let wasBlocked := setHas st.blocked p
    let removedPermit := setHas st.permitted p
    let permitted1 := setDelete st.permitted p
    let coveredByExistingBlock :=
      removedPermit && !wasBlocked && isBlockedByPersistentRules p st.blocked permitted1
    let addedBlock := !wasBlocked && !coveredByExistingBlock
    let blocked1 := if addedBlock then setAdd st.blocked p else st.blocked
    if saveOk then (⟨blocked1, permitted1⟩, [NotifyLevel.info])
    else
      (⟨if addedBlock then setDelete blocked1 p else blocked1,
        if removedPermit then setAdd permitted1 p else permitted1⟩,
       [NotifyLevel.error])

/-- The bash-guard-permit-persist handler (src/index.ts lines 523-559) on the
persistent rule sets, with the storage write modelled by the saveOk flag. -/
def permitPersistStep (st : GuardPair) (args : String) (saveOk : Bool) :
    GuardPair × List NotifyLevel :=
  match canonicalArg args with
  | Option.none => (st, [NotifyLevel.warning, NotifyLevel.info])
  | some p =>
    let wasPermitted := setHas st.permitted p
    let removedBlock := setHas st.blocked p
    let blocked1 := setDelete st.blocked p
    let permitted1 := setAdd st.permitted p
    if saveOk then (⟨blocked1, permitted1⟩, [NotifyLevel.info])
    else
      (⟨if removedBlock then setAdd blocked1 p else blocked1,
        if !wasPermitted then setDelete permitted1 p else permitted1⟩,
       [NotifyLevel.error])

/-- The bash-guard-block handler (src/index.ts lines 561-575) on the session
rule sets. -/
def blockSessionStep (st : GuardPair) (args : String) : GuardPair :=
  match canonicalArg args with
  | Option.none => st
  | some p => ⟨setAdd st.blocked p, setDelete st.permitted p⟩

/-- The bash-guard-permit handler (src/index.ts lines 577-591) on the session
rule sets. -/
def permitSessionStep (st : GuardPair) (args : String) : GuardPair :=
  match canonicalArg args with
  | Option.none => st
  | some p => ⟨setDelete st.blocked p, setAdd st.permitted p⟩

/-- The bash-guard-reset handler (src/index.ts lines 593-610) on the session
rule sets. -/
def resetSessionStep : GuardPair := ⟨[], []⟩

/-- The built-in default block list (src/index.ts line 26). -/
def DEFAULT_BLOCKED_PREFIXES : List String := ["gcloud", "kubectl"]

/-- Canonicalize a stored array into a rule set, dropping entries whose
canonical form is undefined or empty, deduplicating in insertion order. -/
def canonPrefixSet (ps : List String) : List String :=
  listToSet ((ps.filterMap canonicalizePrefix).filter (fun c => !c.isEmpty))

/-- The parsed-file branch of loadPersistedGuardConfig (src/index.ts lines
395-423): the two optional arguments are the blockedPrefixes and
permittedPrefixes fields when present as arrays.  Defaults apply to the
blocked set only when neither array is present. -/
def loadFromParsed (blockedSource permittedSource : Option (List String)) : GuardPair :=
  ⟨canonPrefixSet
      (blockedSource.getD (if permittedSource.isSome then [] else DEFAULT_BLOCKED_PREFIXES)),
   canonPrefixSet (permittedSource.getD [])⟩

/-- The absent-file branch of loadPersistedGuardConfig (src/index.ts lines
387-393): the canonicalized defaults and an empty permit set. -/
def loadAbsent : GuardPair :=
  ⟨canonPrefixSet DEFAULT_BLOCKED_PREFIXES, []⟩

/-- Disjointness of the two sets of one layer, as a decidable test. -/
def pairDisjoint (st : GuardPair) : Bool :=
  st.blocked.all (fun x => !(st.permitted.contains x))

/- Helper lemmas. -/

theorem setHas_iff (s : List String) (x : String) : setHas s x = true ↔ x ∈ s := by
  simp only [setHas]
  exact List.elem_iff

theorem mem_setAdd (s : List String) (x y : String) : y ∈ setAdd s x ↔ y ∈ s ∨ y = x := by
  unfold setAdd
  by_cases h : s.contains x
  · have hx : x ∈ s := List.elem_iff.mp h
    simp only [h, if_pos]
    constructor
    · exact Or.inl
    · rintro (hy | hy)
      · exact hy
      · exact hy ▸ hx
  · simp only [h, Bool.false_eq_true, if_false, List.mem_append, List.mem_singleton]

theorem mem_setDelete (s : List String) (x y : String) : y ∈ setDelete s x ↔ y ∈ s ∧ y ≠ x := by
  simp [setDelete, List.mem_filter, bne_iff_ne]

theorem setDelete_of_not_mem (s : List String) (x : String) (h : x ∉ s) : setDelete s x = s := by
  unfold setDelete
  induction s with
  | nil => rfl
  | cons a t ih =>
    have hax : (a != x) = true := by
      simp only [bne_iff_ne]
      exact fun he => h (he ▸ List.mem_cons_self a t)
    have ht : x ∉ t := fun hm => h (List.mem_cons_of_mem a hm)
    simp [List.filter_cons, hax, ih ht]

theorem setDelete_setAdd_of_not_mem (s : List String) (x : String) (h : x ∉ s) :
    setDelete (setAdd s x) x = s := by
  unfold setAdd
  have hc : ¬(s.contains x = true) := fun hcc => h (List.elem_iff.mp hcc)
  rw [if_neg hc]
  unfold setDelete
  rw [List.filter_append]
  have h1 : List.filter (fun y => y != x) s = s := setDelete_of_not_mem s x h
  have h2 : List.filter (fun y => y != x) [x] = [] := by simp
  rw [h1, h2, List.append_nil]

seal normalizeCommandName canonicalizePrefix

theorem skipEnvAssignments_length_le (ts : List String) :
    (skipEnvAssignments ts).length ≤ ts.length := by
  induction ts with
  | nil => simp [skipEnvAssignments]
  | cons t rest ih =>
    by_cases h : isEnvAssignment t
    · simp only [skipEnvAssignments, h, if_pos, List.length_cons]
      exact Nat.le_succ_of_le ih
    · simp [skipEnvAssignments, h]

theorem skipEnvArgs_length_le (ts : List String) : (skipEnvArgs ts).length ≤ ts.length := by
  induction ts using skipEnvArgs.induct with
  | case1 => simp [skipEnvArgs]
  | case2 head rest2 h1 ih =>
    rw [skipEnvArgs.eq_def]
    simp only [h1, if_true, List.length_cons]
    exact Nat.le_succ_of_le ih
  | case3 head h1 h2 h3 =>
    rw [skipEnvArgs.eq_def]
    simp only [h1, h2, if_true, if_false, Bool.false_eq_true]
    rw [if_pos h3]
    simp
  | case4 head h1 h2 h3 head1 rest2 ih =>
    rw [skipEnvArgs.eq_def]
    simp only [h1, h2, if_true, if_false, Bool.false_eq_true]
    rw [if_pos h3]
    simp only [List.length_cons]
    exact Nat.le_succ_of_le (Nat.le_succ_of_le ih)
  | case5 head rest2 h1 h2 h3 ih =>
    rw [skipEnvArgs.eq_def]
    simp only [h1, h2, if_true, if_false, Bool.false_eq_true]
    rw [if_neg h3]
    simp only [List.length_cons]
    exact Nat.le_succ_of_le ih
  | case6 head rest2 h1 h2 =>
    rw [skipEnvArgs.eq_def]
    simp [h1, h2]

theorem skipSudoArgs_length_le (ts : List String) : (skipSudoArgs ts).length ≤ ts.length := by
  induction ts using skipSudoArgs.induct with
  | case1 => simp [skipSudoArgs]
  | case2 head h1 h2 =>
    rw [skipSudoArgs.eq_def]
    simp only [h1, if_true]
    rw [if_pos h2]
    simp
  | case3 head h1 h2 head1 rest2 ih =>
    rw [skipSudoArgs.eq_def]
    simp only [h1, if_true]
    rw [if_pos h2]
    simp only [List.length_cons]
    exact Nat.le_succ_of_le (Nat.le_succ_of_le ih)
  | case4 head rest2 h1 h2 ih =>
    rw [skipSudoArgs.eq_def]
    simp only [h1, if_true]
    rw [if_neg h2]
    simp only [List.length_cons]
    exact Nat.le_succ_of_le ih
  | case5 head rest2 h1 =>
    rw [skipSudoArgs.eq_def]
    simp [h1]

theorem skipSimpleFlags_length_le (ts : List String) :
    (skipSimpleFlags ts).length ≤ ts.length := by
  induction ts with
  | nil => simp [skipSimpleFlags]
  | cons t rest ih =>
    by_cases h : startsWithDash t
    · simp only [skipSimpleFlags, h, if_pos, List.length_cons]
      exact Nat.le_succ_of_le ih
    · simp [skipSimpleFlags, h]

theorem normalizeGo_fuel (f1 : Nat) : ∀ (f2 : Nat) (ts : List String),
    ts.length < f1 → ts.length < f2 → normalizeGo f1 ts = normalizeGo f2 ts := by
  induction f1 with
  | zero =>
    intro f2 ts h1 _
    exact absurd h1 (Nat.not_lt_zero _)
  | succ n ih =>
    intro f2 ts h1 h2
    cases f2 with
    | zero => exact absurd h2 (Nat.not_lt_zero _)
    | succ m =>
      cases hse : skipEnvAssignments ts with
      | nil => simp [normalizeGo, hse]
      | cons t rest =>
        have hrest : rest.length < ts.length := by
          have h := skipEnvAssignments_length_le ts
          rw [hse] at h
          simp only [List.length_cons] at h
          omega
        simp only [normalizeGo, hse]
        by_cases he : normalizeCommandName t = "env"
        · simp only [he, if_true, reduceIte]
          exact ih m (skipEnvArgs rest)
            (by have := skipEnvArgs_length_le rest; omega)
            (by have := skipEnvArgs_length_le rest; omega)
        · by_cases hs : normalizeCommandName t = "sudo"
          · simp only [he, hs, if_true, if_false, reduceIte]
            exact ih m (skipSudoArgs rest)
              (by have := skipSudoArgs_length_le rest; omega)
              (by have := skipSudoArgs_length_le rest; omega)
          · by_cases hc : normalizeCommandName t = "command" ∨ normalizeCommandName t = "nohup" ∨
                normalizeCommandName t = "time"
            · rw [if_neg he, if_neg hs, if_pos hc, if_neg he, if_neg hs, if_pos hc]
              exact ih m (skipSimpleFlags rest)
                (by have := skipSimpleFlags_length_le rest; omega)
                (by have := skipSimpleFlags_length_le rest; omega)
            · rw [if_neg he, if_neg hs, if_neg hc, if_neg he, if_neg hs, if_neg hc]

theorem normalizeGo_eq_of_lt (f : Nat) (ts : List String) (h : ts.length < f) :
    normalizeGo f ts = normalizeInvocationTokens ts :=
  normalizeGo_fuel f (ts.length + 1) ts h (Nat.lt_succ_self _)

theorem buildRules_eq_filterMap (prefixes : List String) :
    buildRules prefixes = prefixes.filterMap (fun p =>
      match canonicalizePrefix p with
      | Option.none => Option.none
      | some c =>
        if c.isEmpty then Option.none
        else some ⟨c, tokenizeShellWords c, (tokenizeShellWords c).length⟩) := by
  induction prefixes with
  | nil => simp [buildRules]
  | cons p rest ih =>
    rw [List.filterMap_cons]
    cases hc : canonicalizePrefix p with
    | none => simp [buildRules, hc, ih]
    | some c =>
      by_cases he : c.isEmpty
      · simp [buildRules, hc, he, ih]
      · simp [buildRules, hc, he, ih]

unseal normalizeCommandName canonicalizePrefix

theorem foldlMax_init_le (rs : List PrefixRule) : ∀ init : Int,
    init ≤ rs.foldl (fun m rule => max m (rule.tokenCount : Int)) init := by
  induction rs with
  | nil => intro init; simp
  | cons r rest ih =>
    intro init
    simp only [List.foldl_cons]
    exact le_trans (le_max_left _ _) (ih _)

theorem foldlMax_mem_le (rs : List PrefixRule) : ∀ (init : Int) (r : PrefixRule), r ∈ rs →
    (r.tokenCount : Int) ≤ rs.foldl (fun m rule => max m (rule.tokenCount : Int)) init := by
  induction rs with
  | nil => intro _ r hr; cases hr
  | cons a rest ih =>
    intro init r hr
    simp only [List.foldl_cons]
    rcases List.mem_cons.mp hr with h | h
    · subst h
      exact le_trans (le_max_right _ _) (foldlMax_init_le rest _)
    · exact ih _ r h

theorem foldlMax_attained (rs : List PrefixRule) : ∀ init : Int,
    rs.foldl (fun m rule => max m (rule.tokenCount : Int)) init = init ∨
      ∃ r ∈ rs, rs.foldl (fun m rule => max m (rule.tokenCount : Int)) init = (r.tokenCount : Int) := by
  induction rs with
  | nil => intro init; exact Or.inl rfl
  | cons a rest ih =>
    intro init
    simp only [List.foldl_cons]
    rcases ih (max init (a.tokenCount : Int)) with h | ⟨r, hr, h⟩
    · rcases max_cases init (a.tokenCount : Int) with ⟨hm, _⟩ | ⟨hm, _⟩
      · exact Or.inl (by rw [h, hm])
      · exact Or.inr ⟨a, List.mem_cons_self a rest, by rw [h, hm]⟩
    · exact Or.inr ⟨r, List.mem_cons_of_mem a hr, h⟩

theorem neg_one_le_maxTokenCount (rules : List PrefixRule) : -1 ≤ maxTokenCount rules := by
  cases rules with
  | nil => simp [maxTokenCount]
  | cons r rest =>
    simp only [maxTokenCount]
    have h := foldlMax_init_le rest (r.tokenCount : Int)
    have h0 : (0 : Int) ≤ (r.tokenCount : Int) := Int.natCast_nonneg _
    omega

theorem maxTokenCount_eq_neg_one_iff (rules : List PrefixRule) :
    maxTokenCount rules = -1 ↔ rules = [] := by
  cases rules with
  | nil => simp [maxTokenCount]
  | cons r rest =>
    simp only [maxTokenCount]
    constructor
    · intro h
      have h1 := foldlMax_init_le rest (r.tokenCount : Int)
      have h0 : (0 : Int) ≤ (r.tokenCount : Int) := Int.natCast_nonneg _
      omega
    · intro h
      exact absurd h (List.cons_ne_nil _ _)

theorem maxTokenCount_mem_le (rules : List PrefixRule) (r : PrefixRule) (hr : r ∈ rules) :
    (r.tokenCount : Int) ≤ maxTokenCount rules := by
  cases rules with
  | nil => cases hr
  | cons a rest =>
    simp only [maxTokenCount]
    rcases List.mem_cons.mp hr with h | h
    · subst h
      exact foldlMax_init_le rest _
    · exact foldlMax_mem_le rest _ r h

theorem maxTokenCount_attained (rules : List PrefixRule) (h : rules ≠ []) :
    ∃ r ∈ rules, maxTokenCount rules = (r.tokenCount : Int) := by
  cases rules with
  | nil => exact absurd rfl h
  | cons a rest =>
    simp only [maxTokenCount]
    rcases foldlMax_attained rest (a.tokenCount : Int) with h1 | ⟨r, hr, h1⟩
    · exact ⟨a, List.mem_cons_self a rest, h1⟩
    · exact ⟨r, List.mem_cons_of_mem a hr, h1⟩

theorem zipAll_iff_take : ∀ (rs is2 : List String), rs.length ≤ is2.length →
    ((((rs.zip is2).all fun pr => pr.1 == pr.2) = true) ↔ rs = is2.take rs.length) := by
  intro rs
  induction rs with
  | nil =>
    intro is2 h
    simp
  | cons r rest ih =>
    intro is2 h
    cases is2 with
    | nil => simp at h
    | cons i irest =>
      simp only [List.zip_cons_cons, List.all_cons, List.length_cons, List.take_succ_cons,
        Bool.and_eq_true, beq_iff_eq]
      rw [ih irest (by simpa using h)]
      constructor
      · rintro ⟨h1, h2⟩
        rw [h1, ← h2]
      · intro hh
        exact List.cons_eq_cons.mp hh

theorem foldl_push_filterMap {α β : Type} (g : α → Option β) (l : List α) : ∀ acc : List β,
    l.foldl (fun a s => match g s with | Option.none => a | some b => a ++ [b]) acc =
      acc ++ l.filterMap g := by
  induction l with
  | nil => intro acc; simp
  | cons x rest ih =>
    intro acc
    simp only [List.foldl_cons]
    rw [List.filterMap_cons]
    cases hg : g x with
    | none => simp only [hg, ih]
    | some b =>
      simp only [hg, ih (acc ++ [b]), List.append_assoc, List.singleton_append]

/-- C3: decideLayer yields the none verdict exactly when both layer maxima
are -1 (no matching rule on either side); otherwise it yields permit exactly
when the permit maximum is at least the block maximum, so an equal-length tie
resolves to permit; otherwise it blocks and reports exactly the canonical
prefixes of the block matches whose tokenCount equals the block maximum.  The
first three parts state that maxTokenCount is -1 exactly on an empty match
list and otherwise is the attained maximum of the tokenCounts. -/
theorem decideLayer_spec (permitMatches blockMatches : List PrefixRule) :
    (maxTokenCount permitMatches = -1 ↔ permitMatches = [])
  ∧ (∀ r ∈ permitMatches, (r.tokenCount : Int) ≤ maxTokenCount permitMatches)
  ∧ (permitMatches ≠ [] →
      ∃ r ∈ permitMatches, maxTokenCount permitMatches = (r.tokenCount : Int))
  ∧ decideLayer permitMatches blockMatches =
      (if maxTokenCount permitMatches = -1 ∧ maxTokenCount blockMatches = -1 then
        ⟨GuardAction.none, []⟩
      else if maxTokenCount permitMatches ≥ maxTokenCount blockMatches then
        ⟨GuardAction.permit, []⟩
      else
        ⟨GuardAction.block,
          (blockMatches.filter
              (fun rule => (rule.tokenCount : Int) == maxTokenCount blockMatches)).map
            (fun rule => rule.pfx)⟩) := by
  refine ⟨maxTokenCount_eq_neg_one_iff _, fun r hr => maxTokenCount_mem_le _ r hr,
    maxTokenCount_attained _, ?_⟩
  have hp := neg_one_le_maxTokenCount permitMatches
  have hb := neg_one_le_maxTokenCount blockMatches
  simp only [decideLayer, mostSpecificPrefixes]
  split_ifs <;> first | rfl | (exfalso; omega)

/-- Witness for decideLayer_spec: a singleton block-match list attains its
maximum, and each member is bounded by it. -/
theorem decideLayer_spec_witness :
    (((⟨"kubectl", ["kubectl"], 1⟩ : PrefixRule).tokenCount : Int) ≤
        maxTokenCount [(⟨"kubectl", ["kubectl"], 1⟩ : PrefixRule)])
  ∧ (∃ r ∈ [(⟨"kubectl", ["kubectl"], 1⟩ : PrefixRule)],
      maxTokenCount [(⟨"kubectl", ["kubectl"], 1⟩ : PrefixRule)] = (r.tokenCount : Int)) :=
  ⟨(decideLayer_spec [(⟨"kubectl", ["kubectl"], 1⟩ : PrefixRule)] []).2.1
      ⟨"kubectl", ["kubectl"], 1⟩ (by decide),
   (decideLayer_spec [(⟨"kubectl", ["kubectl"], 1⟩ : PrefixRule)] []).2.2.1 (by decide)⟩

/-- C5: isPrefixMatch holds exactly when the rule token list is nonempty, no
longer than the invocation, and equal to the invocation's leading tokens
(case-sensitive string equality); hence matching is monotonic under appending
trailing tokens to the invocation. -/
theorem isPrefixMatch_spec (invocationTokens ruleTokens extra : List String) :
    (isPrefixMatch invocationTokens ruleTokens = true ↔
      ruleTokens ≠ [] ∧ ruleTokens.length ≤ invocationTokens.length ∧
        ruleTokens = invocationTokens.take ruleTokens.length)
  ∧ (isPrefixMatch invocationTokens ruleTokens = true →
      isPrefixMatch (invocationTokens ++ extra) ruleTokens = true) := by
  have main : ∀ inv : List String, isPrefixMatch inv ruleTokens = true ↔
      ruleTokens ≠ [] ∧ ruleTokens.length ≤ inv.length ∧
        ruleTokens = inv.take ruleTokens.length := by
    intro inv
    unfold isPrefixMatch
    by_cases hg : ruleTokens.length = 0 ∨ inv.length < ruleTokens.length
    · rw [if_pos hg]
      simp only [Bool.false_eq_true, false_iff]
      rintro ⟨h1, h2, _⟩
      rcases hg with hg | hg
      · exact h1 (List.eq_nil_of_length_eq_zero hg)
      · omega
    · rw [if_neg hg]
      push_neg at hg
      obtain ⟨hg1, hg2⟩ := hg
      rw [zipAll_iff_take ruleTokens inv hg2]
      constructor
      · intro h
        refine ⟨fun hn => hg1 (by rw [hn]; rfl), hg2, h⟩
      · rintro ⟨_, _, h⟩
        exact h
  constructor
  · exact main invocationTokens
  · intro h
    rw [main invocationTokens] at h
    rw [main (invocationTokens ++ extra)]
    obtain ⟨h1, h2, h3⟩ := h
    refine ⟨h1, by simp only [List.length_append]; omega, ?_⟩
    rw [List.take_append_of_le_length h2]
    exact h3

/-- Witness for isPrefixMatch_spec: the rule kubectl matches kubectl get and
keeps matching after pods is appended. -/
theorem isPrefixMatch_spec_witness :
    isPrefixMatch ["kubectl", "get"] ["kubectl"] = true ∧
      isPrefixMatch (["kubectl", "get"] ++ ["pods"]) ["kubectl"] = true :=
  ⟨by decide, (isPrefixMatch_spec ["kubectl", "get"] ["kubectl"] ["pods"]).2 (by decide)⟩

/-- C10: in the parsed-file branch of the loader, the built-in defaults are
used for the blocked set only when neither array is present; a permittedPrefixes
array with no blockedPrefixes array yields an empty blocked set, and a missing
permittedPrefixes array always yields an empty permit set. -/
theorem loadFromParsed_field_asymmetry :
    (∀ l : List String, (loadFromParsed Option.none (some l)).blocked = [])
  ∧ (∀ bs : Option (List String), (loadFromParsed bs Option.none).permitted = [])
  ∧ (∀ (l : List String) (ps : Option (List String)),
      (loadFromParsed (some l) ps).blocked = canonPrefixSet l)
  ∧ loadFromParsed Option.none Option.none =
      ⟨canonPrefixSet DEFAULT_BLOCKED_PREFIXES, []⟩
  ∧ canonPrefixSet DEFAULT_BLOCKED_PREFIXES = ["gcloud", "kubectl"] :=
  ⟨fun _ => rfl, fun _ => rfl, fun _ _ => rfl, rfl, by decide⟩

/-- C6 counterexample: compiling the raw user text echo "a b" produces a rule
whose tokens are the re-tokenization of the canonical text, namely the three
tokens echo, a, b, not the two-token sequence obtained by tokenizing then
normalizing the raw string (echo and the quoted single token a b). -/
theorem buildRules_retokenize_counterexample :
    (buildRules ["echo \"a b\""]).map (fun rule => rule.tokens) ≠
      [normalizeInvocationTokens (tokenizeShellWords "echo \"a b\"")] := by
  decide

/-- C6 amended: each compiled rule's tokens equal the tokenization of its
canonical prefix (the normalized tokens joined with single spaces), its
tokenCount is that token list's length, and its canonical text is the joined
string; for raw prefixes where quoting places whitespace inside a token this
differs from the tokenize-then-normalize sequence of the raw string, as the
echo "a b" example shows. -/
theorem buildRules_spec (prefixes : List String) :
    buildRules prefixes = prefixes.filterMap (fun p =>
      match canonicalizePrefix p with
      | Option.none => Option.none
      | some c =>
        if c.isEmpty then Option.none
        else some ⟨c, tokenizeShellWords c, (tokenizeShellWords c).length⟩)
  ∧ buildRules ["echo \"a b\""] = [⟨"echo a b", ["echo", "a", "b"], 3⟩]
  ∧ canonicalizePrefix "echo \"a b\"" = some "echo a b"
  ∧ normalizeInvocationTokens (tokenizeShellWords "echo \"a b\"") = ["echo", "a b"] :=
  ⟨buildRules_eq_filterMap prefixes, by decide, by decide, by decide⟩

theorem normalizeGo_sudo_step (fuel : Nat) (ts : List String) :
    normalizeGo (fuel + 1) ("sudo" :: ts) = normalizeGo fuel (skipSudoArgs ts) := rfl

theorem normalizeInvocationTokens_sudo (ts : List String) :
    normalizeInvocationTokens ("sudo" :: ts) = normalizeInvocationTokens (skipSudoArgs ts) := by
  unfold normalizeInvocationTokens
  rw [show ("sudo" :: ts).length + 1 = ts.length + 1 + 1 by simp]
  rw [normalizeGo_sudo_step (ts.length + 1) ts]
  exact normalizeGo_fuel _ _ _ (by have := skipSudoArgs_length_le ts; omega)
    (Nat.lt_succ_self _)

theorem skipSudoArgs_consume (fl v : String) (rest : List String)
    (h1 : startsWithDash fl = true)
    (h2 : SUDO_OPTIONS_WITH_VALUE.contains (normalizeCommandName fl) = true) :
    skipSudoArgs (fl :: v :: rest) = skipSudoArgs rest := by
  rw [skipSudoArgs.eq_def]
  simp only [h1, h2, if_true]

/-- C4: the three wrapper-stripping examples of the specification hold, and in
general every sudo option in the fixed recognized set consumes exactly one
following value token (the nesting of wrappers is exercised by the third
example, where sudo is followed by env). -/
theorem normalizeInvocationTokens_wrappers (fl v : String) (rest : List String)
    (h : fl ∈ SUDO_OPTIONS_WITH_VALUE) :
    normalizeInvocationTokens (tokenizeShellWords "sudo -u root kubectl get pods") =
      ["kubectl", "get", "pods"]
  ∧ normalizeInvocationTokens (tokenizeShellWords "env FOO=bar kubectl get pods") =
      ["kubectl", "get", "pods"]
  ∧ normalizeInvocationTokens (tokenizeShellWords "sudo env FOO=1 kubectl get pods") =
      ["kubectl", "get", "pods"]
  ∧ normalizeInvocationTokens ("sudo" :: fl :: v :: rest) =
      normalizeInvocationTokens ("sudo" :: rest) := by
  refine ⟨by decide, by decide, by decide, ?_⟩
  have h1 : startsWithDash fl = true := by
    fin_cases h <;> decide
  have h2 : SUDO_OPTIONS_WITH_VALUE.contains (normalizeCommandName fl) = true := by
    fin_cases h <;> decide
  rw [normalizeInvocationTokens_sudo (fl :: v :: rest), skipSudoArgs_consume fl v rest h1 h2,
    ← normalizeInvocationTokens_sudo rest]

/-- Witness for normalizeInvocationTokens_wrappers: the -u option with value
root is stripped along with sudo. -/
theorem normalizeInvocationTokens_wrappers_witness :
    ("-u" ∈ SUDO_OPTIONS_WITH_VALUE) ∧
      normalizeInvocationTokens ["sudo", "-u", "root", "kubectl"] =
        normalizeInvocationTokens ["sudo", "kubectl"] :=
  ⟨by decide, (normalizeInvocationTokens_wrappers "-u" "root" ["kubectl"] (by decide)).2.2.2⟩

theorem setAdd_of_mem (s : List String) (x : String) (h : s.contains x = true) :
    setAdd s x = s := by
  unfold setAdd
  rw [if_pos h]

theorem mem_setAdd_setDelete_of_mem (s : List String) (p x : String) (h : p ∈ s) :
    x ∈ setAdd (setDelete s p) p ↔ x ∈ s := by
  rw [mem_setAdd, mem_setDelete]
  constructor
  · rintro (⟨h1, _⟩ | h1)
    · exact h1
    · exact h1 ▸ h
  · intro h1
    by_cases hxp : x = p
    · exact Or.inr hxp
    · exact Or.inl ⟨h1, hxp⟩

theorem blockPersist_rollback_mem (st : GuardPair) (args : String) (x : String) :
    (x ∈ ((blockPersistStep st args false).1).blocked ↔ x ∈ st.blocked) ∧
    (x ∈ ((blockPersistStep st args false).1).permitted ↔ x ∈ st.permitted) := by
  cases hca : canonicalArg args with
  | none => simp [blockPersistStep, hca]
  | some p =>
    by_cases hb : setHas st.blocked p = true
    · by_cases hp : setHas st.permitted p = true
      · have hp' : p ∈ st.permitted := (setHas_iff _ _).mp hp
        have hstate : (blockPersistStep st args false).1 =
            ⟨st.blocked, setAdd (setDelete st.permitted p) p⟩ := by
          simp [blockPersistStep, hca, hb, hp]
        rw [hstate]
        exact ⟨Iff.rfl, mem_setAdd_setDelete_of_mem _ _ _ hp'⟩
      · rw [Bool.not_eq_true] at hp
        have hp' : p ∉ st.permitted := fun hm => by
          rw [(setHas_iff st.permitted p).mpr hm] at hp
          cases hp
        have hstate : (blockPersistStep st args false).1 =
            ⟨st.blocked, setDelete st.permitted p⟩ := by
          simp [blockPersistStep, hca, hb, hp]
        rw [hstate, setDelete_of_not_mem st.permitted p hp']
        exact ⟨Iff.rfl, Iff.rfl⟩
    · rw [Bool.not_eq_true] at hb
      have hb' : p ∉ st.blocked := fun hm => by
        rw [(setHas_iff st.blocked p).mpr hm] at hb
        cases hb
      by_cases hp : setHas st.permitted p = true
      · have hp' : p ∈ st.permitted := (setHas_iff _ _).mp hp
        by_cases hcov : isBlockedByPersistentRules p st.blocked (setDelete st.permitted p) = true
        · have hstate : (blockPersistStep st args false).1 =
              ⟨st.blocked, setAdd (setDelete st.permitted p) p⟩ := by
            simp [blockPersistStep, hca, hb, hp, hcov]
          rw [hstate]
          exact ⟨Iff.rfl, mem_setAdd_setDelete_of_mem _ _ _ hp'⟩
        · rw [Bool.not_eq_true] at hcov
          have hstate : (blockPersistStep st args false).1 =
              ⟨setDelete (setAdd st.blocked p) p, setAdd (setDelete st.permitted p) p⟩ := by
            simp [blockPersistStep, hca, hb, hp, hcov]
          rw [hstate, setDelete_setAdd_of_not_mem st.blocked p hb']
          exact ⟨Iff.rfl, mem_setAdd_setDelete_of_mem _ _ _ hp'⟩
      · rw [Bool.not_eq_true] at hp
        have hp' : p ∉ st.permitted := fun hm => by
          rw [(setHas_iff st.permitted p).mpr hm] at hp
          cases hp
        have hstate : (blockPersistStep st args false).1 =
            ⟨setDelete (setAdd st.blocked p) p, setDelete st.permitted p⟩ := by
          simp [blockPersistStep, hca, hb, hp]
        rw [hstate, setDelete_setAdd_of_not_mem st.blocked p hb',
          setDelete_of_not_mem st.permitted p hp']
        exact ⟨Iff.rfl, Iff.rfl⟩

theorem permitPersist_rollback_mem (st : GuardPair) (args : String) (x : String) :
    (x ∈ ((permitPersistStep st args false).1).blocked ↔ x ∈ st.blocked) ∧
    (x ∈ ((permitPersistStep st args false).1).permitted ↔ x ∈ st.permitted) := by
  cases hca : canonicalArg args with
  | none => simp [permitPersistStep, hca]
  | some p =>
    by_cases hb : setHas st.blocked p = true
    · have hb' : p ∈ st.blocked := (setHas_iff _ _).mp hb
      by_cases hp : setHas st.permitted p = true
      · have hstate : (permitPersistStep st args false).1 =
            ⟨setAdd (setDelete st.blocked p) p, setAdd st.permitted p⟩ := by
          simp [permitPersistStep, hca, hb, hp]
        rw [hstate, setAdd_of_mem st.permitted p hp]
        exact ⟨mem_setAdd_setDelete_of_mem _ _ _ hb', Iff.rfl⟩
      · rw [Bool.not_eq_true] at hp
        have hp' : p ∉ st.permitted := fun hm => by
          rw [(setHas_iff st.permitted p).mpr hm] at hp
          cases hp
        have hstate : (permitPersistStep st args false).1 =
            ⟨setAdd (setDelete st.blocked p) p, setDelete (setAdd st.permitted p) p⟩ := by
          simp [permitPersistStep, hca, hb, hp]
        rw [hstate, setDelete_setAdd_of_not_mem st.permitted p hp']
        exact ⟨mem_setAdd_setDelete_of_mem _ _ _ hb', Iff.rfl⟩
    · rw [Bool.not_eq_true] at hb
      have hb' : p ∉ st.blocked := fun hm => by
        rw [(setHas_iff st.blocked p).mpr hm] at hb
        cases hb
      by_cases hp : setHas st.permitted p = true
      · have hstate : (permitPersistStep st args false).1 =
            ⟨setDelete st.blocked p, setAdd st.permitted p⟩ := by
          simp [permitPersistStep, hca, hb, hp]
        rw [hstate, setDelete_of_not_mem st.blocked p hb', setAdd_of_mem st.permitted p hp]
        exact ⟨Iff.rfl, Iff.rfl⟩
      · rw [Bool.not_eq_true] at hp
        have hp' : p ∉ st.permitted := fun hm => by
          rw [(setHas_iff st.permitted p).mpr hm] at hp
          cases hp
        have hstate : (permitPersistStep st args false).1 =
            ⟨setDelete st.blocked p, setDelete (setAdd st.permitted p) p⟩ := by
          simp [permitPersistStep, hca, hb, hp]
        rw [hstate, setDelete_of_not_mem st.blocked p hb',
          setDelete_setAdd_of_not_mem st.permitted p hp']
        exact ⟨Iff.rfl, Iff.rfl⟩

theorem pairDisjoint_iff (st : GuardPair) :
    pairDisjoint st = true ↔ ∀ x, x ∈ st.blocked → x ∉ st.permitted := by
  unfold pairDisjoint
  rw [List.all_eq_true]
  constructor
  · intro h x hx hmem
    have h1 := h x hx
    have hc : st.permitted.contains x = true := List.elem_iff.mpr hmem
    rw [hc] at h1
    cases h1
  · intro h x hx
    cases hcl : st.permitted.contains x with
    | false => rfl
    | true => exact absurd (List.elem_iff.mp hcl) (h x hx)

theorem disjoint_add_del (blocked permitted : List String) (p : String)
    (h : ∀ x, x ∈ blocked → x ∉ permitted) :
    ∀ x, x ∈ setAdd blocked p → x ∉ setDelete permitted p := by
  intro x hx hmem
  obtain ⟨hm1, hm2⟩ := (mem_setDelete _ _ _).mp hmem
  rcases (mem_setAdd _ _ _).mp hx with hb | hb
  · exact h x hb hm1
  · exact hm2 hb

theorem disjoint_del_add (blocked permitted : List String) (p : String)
    (h : ∀ x, x ∈ blocked → x ∉ permitted) :
    ∀ x, x ∈ setDelete blocked p → x ∉ setAdd permitted p := by
  intro x hx hmem
  obtain ⟨h1, h2⟩ := (mem_setDelete _ _ _).mp hx
  rcases (mem_setAdd _ _ _).mp hmem with hm | hm
  · exact h x h1 hm
  · exact h2 hm

theorem disjoint_if_add_del (blocked permitted : List String) (p : String) (doAdd : Bool)
    (h : ∀ x, x ∈ blocked → x ∉ permitted) :
    ∀ x, x ∈ (if doAdd = true then setAdd blocked p else blocked) →
      x ∉ setDelete permitted p := by
  cases doAdd with
  | true =>
    simp only [if_pos]
    exact disjoint_add_del blocked permitted p h
  | false =>
    simp only [Bool.false_eq_true, if_false]
    intro x hx hmem
    exact h x hx ((mem_setDelete _ _ _).mp hmem).1

theorem blockPersist_preserves_disjoint (st : GuardPair) (args : String) (ok : Bool)
    (h : pairDisjoint st = true) : pairDisjoint (blockPersistStep st args ok).1 = true := by
  cases hca : canonicalArg args with
  | none => simpa [blockPersistStep, hca] using h
  | some p =>
    cases ok with
    | false =>
      rw [pairDisjoint_iff] at h ⊢
      intro x hx hmem
      exact h x ((blockPersist_rollback_mem st args x).1.mp hx)
        ((blockPersist_rollback_mem st args x).2.mp hmem)
    | true =>
      rw [pairDisjoint_iff] at h
      have hgoal : (blockPersistStep st args true).1 =
          ⟨if (!setHas st.blocked p &&
                !(setHas st.permitted p && !setHas st.blocked p &&
                  isBlockedByPersistentRules p st.blocked (setDelete st.permitted p))) = true
            then setAdd st.blocked p else st.blocked,
           setDelete st.permitted p⟩ := by
        simp [blockPersistStep, hca]
      rw [pairDisjoint_iff, hgoal]
      exact disjoint_if_add_del st.blocked st.permitted p _ h

theorem permitPersist_preserves_disjoint (st : GuardPair) (args : String) (ok : Bool)
    (h : pairDisjoint st = true) : pairDisjoint (permitPersistStep st args ok).1 = true := by
  cases hca : canonicalArg args with
  | none => simpa [permitPersistStep, hca] using h
  | some p =>
    cases ok with
    | false =>
      rw [pairDisjoint_iff] at h ⊢
      intro x hx hmem
      exact h x ((permitPersist_rollback_mem st args x).1.mp hx)
        ((permitPersist_rollback_mem st args x).2.mp hmem)
    | true =>
      rw [pairDisjoint_iff] at h
      have hgoal : (permitPersistStep st args true).1 =
          ⟨setDelete st.blocked p, setAdd st.permitted p⟩ := by
        simp [permitPersistStep, hca]
      rw [pairDisjoint_iff, hgoal]
      exact disjoint_del_add st.blocked st.permitted p h

/-- C7: when the storage write fails, both persist-style handlers restore the
persistent blocked and permitted sets to exactly their previous membership
(the rollback), and, whenever the argument canonicalizes to a valid prefix so
that a save was attempted, the failure is surfaced as an error notification. -/
theorem persist_rollback_atomicity (st : GuardPair) (args : String) :
    (∀ x, x ∈ ((blockPersistStep st args false).1).blocked ↔ x ∈ st.blocked)
  ∧ (∀ x, x ∈ ((blockPersistStep st args false).1).permitted ↔ x ∈ st.permitted)
  ∧ (∀ x, x ∈ ((permitPersistStep st args false).1).blocked ↔ x ∈ st.blocked)
  ∧ (∀ x, x ∈ ((permitPersistStep st args false).1).permitted ↔ x ∈ st.permitted)
  ∧ ((canonicalArg args).isSome = true →
      NotifyLevel.error ∈ (blockPersistStep st args false).2 ∧
      NotifyLevel.error ∈ (permitPersistStep st args false).2) := by
  refine ⟨fun x => (blockPersist_rollback_mem st args x).1,
    fun x => (blockPersist_rollback_mem st args x).2,
    fun x => (permitPersist_rollback_mem st args x).1,
    fun x => (permitPersist_rollback_mem st args x).2, ?_⟩
  intro hsome
  cases hca : canonicalArg args with
  | none => rw [hca] at hsome; cases hsome
  | some p =>
    constructor
    · simp only [blockPersistStep, hca]
      simp
    · simp only [permitPersistStep, hca]
      simp

/-- Witness for persist_rollback_atomicity: the argument kubectl is a valid
prefix and the failed save surfaces an error in both handlers; the rollback
leaves the empty state unchanged. -/
theorem persist_rollback_atomicity_witness :
    (canonicalArg "kubectl").isSome = true ∧
    ("kubectl" ∈ ((blockPersistStep ⟨[], []⟩ "kubectl" false).1).blocked ↔
      "kubectl" ∈ (([] : List String))) ∧
    (NotifyLevel.error ∈ (blockPersistStep ⟨[], []⟩ "kubectl" false).2 ∧
     NotifyLevel.error ∈ (permitPersistStep ⟨[], []⟩ "kubectl" false).2) :=
  ⟨by decide, (persist_rollback_atomicity ⟨[], []⟩ "kubectl").1 "kubectl",
    (persist_rollback_atomicity ⟨[], []⟩ "kubectl").2.2.2.2 (by decide)⟩

/-- C8: when block-persistent is invoked on a prefix that is currently
permitted, not blocked, and already covered by the remaining persistent block
rules, the handler removes the permit and adds no block rule: the blocked set
is returned unchanged and the permitted set is exactly the old one with the
prefix deleted. -/
theorem blockPersist_redundancy (st : GuardPair) (args c : String)
    (h1 : canonicalArg args = some c)
    (h2 : setHas st.blocked c = false)
    (h3 : setHas st.permitted c = true)
    (h4 : isBlockedByPersistentRules c st.blocked (setDelete st.permitted c) = true) :
    ((blockPersistStep st args true).1).blocked = st.blocked ∧
    ((blockPersistStep st args true).1).permitted = setDelete st.permitted c := by
  constructor <;> simp [blockPersistStep, h1, h2, h3, h4]

/-- Witness for blockPersist_redundancy: the specification's scenario with
persistent block kubectl and persistent permit kubectl get. -/
theorem blockPersist_redundancy_witness :
    canonicalArg "kubectl get" = some "kubectl get" ∧
    setHas ["kubectl"] "kubectl get" = false ∧
    setHas ["kubectl get"] "kubectl get" = true ∧
    isBlockedByPersistentRules "kubectl get" ["kubectl"]
      (setDelete ["kubectl get"] "kubectl get") = true ∧
    (((blockPersistStep ⟨["kubectl"], ["kubectl get"]⟩ "kubectl get" true).1).blocked =
        ["kubectl"] ∧
      ((blockPersistStep ⟨["kubectl"], ["kubectl get"]⟩ "kubectl get" true).1).permitted =
        setDelete ["kubectl get"] "kubectl get") :=
  ⟨by decide, by decide, by decide, by decide,
    blockPersist_redundancy ⟨["kubectl"], ["kubectl get"]⟩ "kubectl get" "kubectl get"
      (by decide) (by decide) (by decide) (by decide)⟩

/-- C9 counterexample: loading a stored configuration that lists kubectl both
in blockedPrefixes and in permittedPrefixes yields a state in which kubectl is
a member of both persistent sets, so the per-layer disjointness invariant does
not hold after loading an arbitrary stored configuration. -/
theorem loader_overlap_counterexample :
    "kubectl" ∈ (loadFromParsed (some ["kubectl"]) (some ["kubectl"])).blocked ∧
    "kubectl" ∈ (loadFromParsed (some ["kubectl"]) (some ["kubectl"])).permitted := by
  decide

/-- C9 amended: every policy command preserves per-layer disjointness when it
held before, including persist-style commands whose save failed and was rolled
back; loading yields disjoint sets when at most one of the two stored arrays
is present, and the absent-file defaults are disjoint.  (Loading a stored
configuration whose two arrays share a canonical prefix violates the
invariant, as the counterexample shows.) -/
theorem guard_disjointness (st : GuardPair) (args : String) (ok : Bool)
    (h : pairDisjoint st = true) :
    pairDisjoint (blockPersistStep st args ok).1 = true
  ∧ pairDisjoint (permitPersistStep st args ok).1 = true
  ∧ pairDisjoint (blockSessionStep st args) = true
  ∧ pairDisjoint (permitSessionStep st args) = true
  ∧ pairDisjoint resetSessionStep = true
  ∧ (∀ bs : Option (List String), pairDisjoint (loadFromParsed bs Option.none) = true)
  ∧ (∀ l : List String, pairDisjoint (loadFromParsed Option.none (some l)) = true)
  ∧ pairDisjoint loadAbsent = true := by
  refine ⟨blockPersist_preserves_disjoint st args ok h,
    permitPersist_preserves_disjoint st args ok h, ?_, ?_, by decide, ?_, ?_, by decide⟩
  · cases hca : canonicalArg args with
    | none => simpa [blockSessionStep, hca] using h
    | some p =>
      rw [pairDisjoint_iff] at h
      have hgoal : blockSessionStep st args = ⟨setAdd st.blocked p, setDelete st.permitted p⟩ := by
        simp [blockSessionStep, hca]
      rw [hgoal, pairDisjoint_iff]
      exact disjoint_add_del st.blocked st.permitted p h
  · cases hca : canonicalArg args with
    | none => simpa [permitSessionStep, hca] using h
    | some p =>
      rw [pairDisjoint_iff] at h
      have hgoal : permitSessionStep st args = ⟨setDelete st.blocked p, setAdd st.permitted p⟩ := by
        simp [permitSessionStep, hca]
      rw [hgoal, pairDisjoint_iff]
      exact disjoint_del_add st.blocked st.permitted p h
  · intro bs
    rw [pairDisjoint_iff]
    intro x _ hmem
    simp [loadFromParsed, canonPrefixSet, listToSet] at hmem
  · intro l
    rw [pairDisjoint_iff]
    intro x hx
    simp [loadFromParsed, canonPrefixSet, listToSet] at hx

/-- Witness for guard_disjointness: a disjoint state with one block and one
permit stays disjoint through a rolled-back block-persistent command. -/
theorem guard_disjointness_witness :
    pairDisjoint ⟨["kubectl"], ["gcloud"]⟩ = true ∧
    pairDisjoint (blockPersistStep ⟨["kubectl"], ["gcloud"]⟩ "gcloud" false).1 = true :=
  ⟨by decide, (guard_disjointness ⟨["kubectl"], ["gcloud"]⟩ "gcloud" false (by decide)).1⟩

theorem resolveSegment_step (spr sbr ppr pbr : List PrefixRule)
    (blocked : List BlockedInvocation) (ts : List String) :
    (if ts.isEmpty then blocked
     else
       let invocation := joinTokens ts
       let sessionDecision := decideLayer (matchingRules ts spr) (matchingRules ts sbr)
       if sessionDecision.action = GuardAction.permit then blocked
       else if sessionDecision.action = GuardAction.block then
         blocked ++ [⟨invocation, sessionDecision.matchedBlocks⟩]
       else
         let persistentDecision := decideLayer (matchingRules ts ppr) (matchingRules ts pbr)
         if persistentDecision.action = GuardAction.block then
           blocked ++ [⟨invocation, persistentDecision.matchedBlocks⟩]
         else blocked) =
    (match resolveSegment ts spr sbr ppr pbr with
     | Option.none => blocked
     | some b => blocked ++ [b]) := by
  unfold resolveSegment
  by_cases h1 : ts.isEmpty
  · simp [h1]
  · simp only [h1, Bool.false_eq_true, if_false]
    cases hsd : (decideLayer (matchingRules ts spr) (matchingRules ts sbr)).action with
    | permit => simp [hsd]
    | block => simp [hsd]
    | none =>
      cases hpd : (decideLayer (matchingRules ts ppr) (matchingRules ts pbr)).action with
      | permit => simp [hsd, hpd]
      | block => simp [hsd, hpd]
      | none => simp [hsd, hpd]

theorem fold_resolve (spr sbr ppr pbr : List PrefixRule) :
    ∀ (segs : List String) (acc : List BlockedInvocation),
      segs.foldl
        (fun blocked segment =>
          let invocationTokens := normalizeInvocationTokens (tokenizeShellWords segment)
          if invocationTokens.isEmpty then blocked
          else
            let invocation := joinTokens invocationTokens
            let sessionDecision := decideLayer
              (matchingRules invocationTokens spr) (matchingRules invocationTokens sbr)
            if sessionDecision.action = GuardAction.permit then blocked
            else if sessionDecision.action = GuardAction.block then
              blocked ++ [⟨invocation, sessionDecision.matchedBlocks⟩]
            else
              let persistentDecision := decideLayer
                (matchingRules invocationTokens ppr) (matchingRules invocationTokens pbr)
              if persistentDecision.action = GuardAction.block then
                blocked ++ [⟨invocation, persistentDecision.matchedBlocks⟩]
              else blocked)
        acc =
      acc ++ segs.filterMap (fun segment =>
        resolveSegment (normalizeInvocationTokens (tokenizeShellWords segment))
          spr sbr ppr pbr) := by
  intro segs
  induction segs with
  | nil => intro acc; simp
  | cons sgm rest ih =>
    intro acc
    simp only [List.foldl_cons]
    rw [List.filterMap_cons]
    rw [resolveSegment_step spr sbr ppr pbr acc
      (normalizeInvocationTokens (tokenizeShellWords sgm))]
    cases hg : resolveSegment (normalizeInvocationTokens (tokenizeShellWords sgm))
        spr sbr ppr pbr with
    | none => simp only [hg, ih]
    | some b =>
      simp only [hg, ih (acc ++ [b]), List.append_assoc, List.singleton_append]

/-- C1: findBlockedInvocations equals the per-segment resolution mapped over
the segmentation, keeping exactly one record per blocked segment with that
segment's space-joined normalized invocation and the deciding layer's matched
blocks; the result is nonempty exactly when some segment resolves to blocked;
and the end-to-end scenario with persistent block gcloud on the command
gcloud compute instances list; echo hi yields exactly one record. -/
theorem findBlockedInvocations_spec (input : String)
    (persistentBlockedPrefixes persistentPermitPrefixes
     sessionBlockedPrefixes sessionPermitPrefixes : List String) :
    findBlockedInvocations input persistentBlockedPrefixes persistentPermitPrefixes
        sessionBlockedPrefixes sessionPermitPrefixes =
      (splitShellSegments input).filterMap (fun segment =>
        resolveSegment (normalizeInvocationTokens (tokenizeShellWords segment))
          (buildRules sessionPermitPrefixes) (buildRules sessionBlockedPrefixes)
          (buildRules persistentPermitPrefixes) (buildRules persistentBlockedPrefixes))
  ∧ (findBlockedInvocations input persistentBlockedPrefixes persistentPermitPrefixes
        sessionBlockedPrefixes sessionPermitPrefixes ≠ [] ↔
      ∃ segment ∈ splitShellSegments input,
        resolveSegment (normalizeInvocationTokens (tokenizeShellWords segment))
          (buildRules sessionPermitPrefixes) (buildRules sessionBlockedPrefixes)
          (buildRules persistentPermitPrefixes) (buildRules persistentBlockedPrefixes) ≠
          Option.none)
  ∧ findBlockedInvocations "gcloud compute instances list; echo hi" ["gcloud"] [] [] [] =
      [⟨"gcloud compute instances list", ["gcloud"]⟩] := by
  have hmain : findBlockedInvocations input persistentBlockedPrefixes persistentPermitPrefixes
      sessionBlockedPrefixes sessionPermitPrefixes =
      (splitShellSegments input).filterMap (fun segment =>
        resolveSegment (normalizeInvocationTokens (tokenizeShellWords segment))
          (buildRules sessionPermitPrefixes) (buildRules sessionBlockedPrefixes)
          (buildRules persistentPermitPrefixes) (buildRules persistentBlockedPrefixes)) := by
    unfold findBlockedInvocations
    exact (fold_resolve (buildRules sessionPermitPrefixes) (buildRules sessionBlockedPrefixes)
      (buildRules persistentPermitPrefixes) (buildRules persistentBlockedPrefixes)
      (splitShellSegments input) []).trans (List.nil_append _)
  refine ⟨hmain, ?_, by decide⟩
  rw [hmain, Ne, List.filterMap_eq_nil_iff]
  push_neg
  rfl

/-- C2: per-segment resolution decides the session layer first: a session
permit allows the segment no matter what the persistent rule sets contain, a
session block reports the session layer's matched blocks, and only a session
verdict of none hands over to the persistent layer, whose block verdict alone
blocks the segment with its own matched blocks. -/
theorem resolveSegment_layer_precedence (invocationTokens : List String)
    (spr sbr ppr pbr : List PrefixRule) (h : invocationTokens ≠ []) :
    (resolveSegment invocationTokens spr sbr ppr pbr =
      (let sd := decideLayer (matchingRules invocationTokens spr)
        (matchingRules invocationTokens sbr)
       let pd := decideLayer (matchingRules invocationTokens ppr)
        (matchingRules invocationTokens pbr)
       if sd.action = GuardAction.permit then Option.none
       else if sd.action = GuardAction.block then
         some ⟨joinTokens invocationTokens, sd.matchedBlocks⟩
       else if pd.action = GuardAction.block then
         some ⟨joinTokens invocationTokens, pd.matchedBlocks⟩
       else Option.none))
  ∧ ((decideLayer (matchingRules invocationTokens spr)
        (matchingRules invocationTokens sbr)).action = GuardAction.permit →
      ∀ ppr2 pbr2, resolveSegment invocationTokens spr sbr ppr2 pbr2 = Option.none) := by
  have hne : invocationTokens.isEmpty = false := by
    cases invocationTokens with
    | nil => exact absurd rfl h
    | cons a l => rfl
  constructor
  · unfold resolveSegment
    simp only [hne, Bool.false_eq_true, if_false]
  · intro hp ppr2 pbr2
    unfold resolveSegment
    simp [hne, hp]

/-- Witness for resolveSegment_layer_precedence: a session permit for kubectl
lets the invocation kubectl through even though the persistent layer holds a
block rule for the same prefix. -/
theorem resolveSegment_layer_precedence_witness :
    (["kubectl"] : List String) ≠ [] ∧
    resolveSegment ["kubectl"] (buildRules ["kubectl"]) [] [] (buildRules ["kubectl"]) =
      Option.none :=
  ⟨by decide,
    (resolveSegment_layer_precedence ["kubectl"] (buildRules ["kubectl"]) [] []
        (buildRules ["kubectl"]) (by decide)).2 (by decide) [] (buildRules ["kubectl"])⟩
